import Mathlib

/-!
# Formal model of the artemis-network blockchain node

A shallow embedding, in Lean 4, of the parts of the `artemis-network`
repository (Rust) that the verified claims are about:

* SHA-256 (executable, over `Nat` words reduced mod `2^32`), used by
  `Transaction::hash` and `Block::calculate_hash` (`src/transaction.rs`,
  `src/block.rs`);
* the transaction and block data model, the chain validity predicates and
  chain mutation operations (`src/blockchain.rs`, `src/server.rs`,
  `src/sync.rs`, `src/miner.rs`);
* the transaction pool (`src/pool.rs`), with the `BinaryHeap` modelled as a
  list kept sorted in pop order by the source's `Ord for Transaction`;
* the persistent store's wallet index and balance computation (`src/db.rs`);
* the HTTP submission handlers' accept/reject logic (`src/handler.rs`).

Machine integers are modelled as `Nat`/`Int`; the `f64` amounts and fees
(wrapped in `OrderedFloat` in the source) are modelled as exact rationals
`ℚ`, with the same total order. ECDSA signature recovery is opaque: it is
threaded through as a parameter `sigOk : Transaction → String → Bool`
standing for the body of the `Some signature` branch of
`Transaction::verify`.
-/

set_option maxRecDepth 100000

namespace Artemis

/-! ## SHA-256 over `Nat` (FIPS 180-4), bytes in, bytes out -/

/-- Reduce to a 32-bit word. -/
def w32 (x : Nat) : Nat := x % 4294967296

/-- 32-bit right rotation. -/
def rotr (n x : Nat) : Nat := w32 ((x >>> n) ||| (x <<< (32 - n)))

/-- Logical right shift. -/
def shr (n x : Nat) : Nat := x >>> n

/-- Bitwise complement on 32-bit words. -/
def bnot32 (x : Nat) : Nat := x ^^^ 4294967295

def bigSigma0 (x : Nat) : Nat := (rotr 2 x) ^^^ (rotr 13 x) ^^^ (rotr 22 x)

def bigSigma1 (x : Nat) : Nat := (rotr 6 x) ^^^ (rotr 11 x) ^^^ (rotr 25 x)

def smallSigma0 (x : Nat) : Nat := (rotr 7 x) ^^^ (rotr 18 x) ^^^ (shr 3 x)

def smallSigma1 (x : Nat) : Nat := (rotr 17 x) ^^^ (rotr 19 x) ^^^ (shr 10 x)

def chFn (x y z : Nat) : Nat := (x &&& y) ^^^ (bnot32 x &&& z)

def majFn (x y z : Nat) : Nat := (x &&& y) ^^^ (x &&& z) ^^^ (y &&& z)

/-- The 64 SHA-256 round constants (FIPS 180-4 §4.2.2, in decimal). -/
def sha256K : List Nat :=
  [1116352408, 1899447441, 3049323471, 3921009573, 961987163,
   1508970993, 2453635748, 2870763221, 3624381080, 310598401,
   607225278, 1426881987, 1925078388, 2162078206, 2614888103,
   3248222580, 3835390401, 4022224774, 264347078, 604807628,
   770255983, 1249150122, 1555081692, 1996064986, 2554220882,
   2821834349, 2952996808, 3210313671, 3336571891, 3584528711,
   113926993, 338241895, 666307205, 773529912, 1294757372,
   1396182291, 1695183700, 1986661051, 2177026350, 2456956037,
   2730485921, 2820302411, 3259730800, 3345764771, 3516065817,
   3600352804, 4094571909, 275423344, 430227734, 506948616,
   659060556, 883997877, 958139571, 1322822218, 1537002063,
   1747873779, 1955562222, 2024104815, 2227730452, 2361852424,
   2428436474, 2756734187, 3204031479, 3329325298]

/-- Working state of the compression function: eight 32-bit words. -/
structure Sha256State where
  a : Nat
  b : Nat
  c : Nat
  d : Nat
  e : Nat
  f : Nat
  g : Nat
  h : Nat
deriving DecidableEq

/-- Initial hash value `H(0)` (FIPS 180-4 §5.3.3, in decimal). -/
def sha256Init : Sha256State :=
  ⟨1779033703, 3144134277, 1013904242, 2773480762,
   1359893119, 2600822924, 528734635, 1541459225⟩

/-- One round of the SHA-256 compression function. -/
def compressStep (s : Sha256State) (kw : Nat × Nat) : Sha256State :=
  let t1 := w32 (s.h + bigSigma1 s.e + chFn s.e s.f s.g + kw.1 + kw.2)
  let t2 := w32 (bigSigma0 s.a + majFn s.a s.b s.c)
  ⟨w32 (t1 + t2), s.a, s.b, s.c, w32 (s.d + t1), s.e, s.f, s.g⟩

/-- Message-schedule extension: append words `W[t]` for `fuel` further rounds. -/
def extendW : List Nat → Nat → List Nat
  | ws, 0 => ws
  | ws, fuel + 1 =>
    let t := ws.length
    let w := w32 (smallSigma1 (ws.getD (t - 2) 0) + ws.getD (t - 7) 0 +
                  smallSigma0 (ws.getD (t - 15) 0) + ws.getD (t - 16) 0)
    extendW (ws ++ [w]) fuel

/-- Big-endian bytes (most significant first) of `n`, `len` bytes wide. -/
def toBytesBE : Nat → Nat → List Nat
  | 0, _ => []
  | len + 1, n => toBytesBE len (n / 256) ++ [n % 256]

/-- Group a byte list into big-endian 32-bit words (4 bytes each). -/
def bytesToWords : List Nat → List Nat
  | b0 :: b1 :: b2 :: b3 :: rest =>
    (((b0 * 256 + b1) * 256 + b2) * 256 + b3) :: bytesToWords rest
  | _ => []

/-- SHA-256 padding: append `0x80`, zeros, and the 64-bit big-endian bit
length, reaching a multiple of 64 bytes. -/
def padMessage (msg : List Nat) : List Nat :=
  let len := msg.length
  let zeros := (64 - (len + 9) % 64) % 64
  msg ++ [0x80] ++ List.replicate zeros 0 ++ toBytesBE 8 (8 * len)

/-- Split a list into 64-byte chunks (`fuel` bounds the recursion). -/
def chunksGo : Nat → List Nat → List (List Nat)
  | 0, _ => []
  | _ + 1, [] => []
  | fuel + 1, l => l.take 64 :: chunksGo fuel (l.drop 64)

def chunks (l : List Nat) : List (List Nat) := chunksGo l.length l

/-- Compress one 64-byte block into the running hash state. -/
def compressBlock (hs : Sha256State) (blockBytes : List Nat) : Sha256State :=
  let ws := extendW (bytesToWords blockBytes) 48
  let s := (sha256K.zip ws).foldl compressStep hs
  ⟨w32 (hs.a + s.a), w32 (hs.b + s.b), w32 (hs.c + s.c), w32 (hs.d + s.d),
   w32 (hs.e + s.e), w32 (hs.f + s.f), w32 (hs.g + s.g), w32 (hs.h + s.h)⟩

/-- SHA-256 of a byte list, as a list of 32 bytes. -/
def sha256Bytes (msg : List Nat) : List Nat :=
  let s := (chunks (padMessage msg)).foldl compressBlock sha256Init
  toBytesBE 4 s.a ++ toBytesBE 4 s.b ++ toBytesBE 4 s.c ++ toBytesBE 4 s.d ++
  toBytesBE 4 s.e ++ toBytesBE 4 s.f ++ toBytesBE 4 s.g ++ toBytesBE 4 s.h

/-- Lowercase hex digit for a value below 16. -/
def hexDigit (n : Nat) : Char :=
  if n < 10 then Char.ofNat (48 + n) else Char.ofNat (87 + n)

/-- Lowercase hex encoding of a byte list (`hex::encode` in the source). -/
def hexEncode (bs : List Nat) : String :=
  String.mk (bs.foldr (fun b acc => hexDigit (b / 16) :: hexDigit (b % 16) :: acc) [])

/-- The bytes of an ASCII string (all hash inputs in this program are ASCII,
so UTF-8 bytes coincide with the code points). -/
def strBytes (s : String) : List Nat := s.data.map Char.toNat

/-- `hex::encode(Sha256::digest(s))` as used throughout the source. -/
def sha256Hex (s : String) : String := hexEncode (sha256Bytes (strBytes s))

/-- Sanity check against the FIPS 180-4 test vector for "abc". -/
theorem sha256Hex_abc :
    sha256Hex "abc" =
      "ba7816bf8f01cfea414140de5dae2223b00361a396177a9cb410ff61f20015ad" := by
  decide

/-! ## Transactions (`src/transaction.rs`)

`amount` and `fee` are `OrderedFloat<f64>` in the source; they are modelled
as exact rationals with the same total order. `timestamp` is `i64`,
modelled as `ℤ`. -/

structure Transaction where
  sender : String
  recipient : String
  amount : ℚ
  fee : ℚ
  timestamp : ℤ
  signature : Option String
deriving DecidableEq

/-- Digits after the decimal point of the fraction `r / d` (`r < d`),
produced until the remainder vanishes; `fuel` bounds the recursion. -/
def fracDigits : Nat → Nat → Nat → List Char
  | 0, _, _ => []
  | _ + 1, 0, _ => []
  | fuel + 1, r, d => hexDigit (r * 10 / d) :: fracDigits fuel (r * 10 % d) d

/-- Decimal rendering of a rational, matching Rust's `Display` for the `f64`
values used by the program: integers print with no decimal point (`10`),
other values print their (finite) decimal expansion (`0.1`). -/
def fmtAmount (q : ℚ) : String :=
  let sign := if q.num < 0 then "-" else ""
  let n := q.num.natAbs
  let intPart := Nat.repr (n / q.den)
  let fr := fracDigits 64 (n % q.den) q.den
  if fr.isEmpty then sign ++ intPart
  else sign ++ intPart ++ "." ++ String.mk fr

/-- The `"{sender}:{recipient}:{amount}:{fee}:{timestamp}"` format string
shared by `Transaction::hash`, `Transaction::sign` and
`Transaction::verify`. -/
def Transaction.txData (tx : Transaction) : String :=
  tx.sender ++ ":" ++ tx.recipient ++ ":" ++ fmtAmount tx.amount ++ ":" ++
    fmtAmount tx.fee ++ ":" ++ toString tx.timestamp

/-- `Transaction::hash`: hex-encoded SHA-256 of the format string. -/
def Transaction.hash (tx : Transaction) : String := sha256Hex tx.txData

/-- `Transaction::verify`. The `Some(signature)` branch (hex decoding,
recovery-id extraction, ECDSA public-key recovery and comparison against
`sender`) is opaque cryptography, abstracted as the parameter `sigOk`. -/
def Transaction.verify (sigOk : Transaction → String → Bool)
    (tx : Transaction) : Bool :=
  if tx.sender == "COINBASE" then true
  else
    match tx.signature with
    | some signature_hex => sigOk tx signature_hex
    | none => false

/-- `impl Ord for Transaction`:
`self.fee.cmp(&other.fee).then_with(|| other.timestamp.cmp(&self.timestamp))`. -/
def cmpQ (x y : ℚ) : Ordering :=
  if x < y then .lt else if x = y then .eq else .gt

def cmpZ (x y : ℤ) : Ordering :=
  if x < y then .lt else if x = y then .eq else .gt

def txCmp (a b : Transaction) : Ordering :=
  (cmpQ a.fee b.fee).then (cmpZ b.timestamp a.timestamp)

/-- `a` is not ranked below `b` by the source's `Ord`; a max-heap pops
elements in a `txGe`-descending sequence. -/
def txGe (a b : Transaction) : Prop := txCmp a b ≠ .lt

instance : DecidableRel txGe := fun a b =>
  inferInstanceAs (Decidable (txCmp a b ≠ .lt))

/-- The priority order the spec states: higher fee first, ties by older
(smaller) timestamp first. `txPriorGe a b` says `a` may come before `b`. -/
def txPriorGe (a b : Transaction) : Prop :=
  b.fee < a.fee ∨ (a.fee = b.fee ∧ a.timestamp ≤ b.timestamp)

theorem txGe_iff (a b : Transaction) : txGe a b ↔ txPriorGe a b := by
  unfold txGe txPriorGe txCmp cmpQ cmpZ
  rcases lt_trichotomy a.fee b.fee with h | h | h
  · simp [h, Ordering.then, h.asymm, h.ne]
  · rcases lt_trichotomy a.timestamp b.timestamp with ht | ht | ht
    · simp [h, Ordering.then, ht.asymm, ht.ne', ht.le]
    · simp [h, Ordering.then, ht]
    · simp [h, Ordering.then, ht, ht.not_le]
  · simp [h.asymm, h.ne', Ordering.then, h]

instance : IsTotal Transaction txGe := by
  constructor
  intro a b
  rw [txGe_iff, txGe_iff]
  unfold txPriorGe
  rcases lt_trichotomy a.fee b.fee with h | h | h
  · exact Or.inr (Or.inl h)
  · rcases le_total a.timestamp b.timestamp with ht | ht
    · exact Or.inl (Or.inr ⟨h, ht⟩)
    · exact Or.inr (Or.inr ⟨h.symm, ht⟩)
  · exact Or.inl (Or.inl h)

instance : IsTrans Transaction txGe := by
  constructor
  intro a b c hab hbc
  rw [txGe_iff] at *
  rcases hab with h1 | ⟨h1, t1⟩ <;> rcases hbc with h2 | ⟨h2, t2⟩
  · exact Or.inl (h2.trans h1)
  · exact Or.inl (h2 ▸ h1)
  · exact Or.inl (h1.symm ▸ h2)
  · exact Or.inr ⟨h1.trans h2, t1.trans t2⟩

/-! ## Blocks (`src/block.rs`) -/

structure Block where
  index : Nat
  timestamp : Nat
  transactions : List Transaction
  previous_hash : String
  hash : String
  nonce : Nat
deriving DecidableEq

/-- `Block::calculate_hash`: SHA-256 of
`"{index}{timestamp}{transactions_data}{previous_hash}{nonce}"` where
`transactions_data` concatenates each transaction's hash. -/
def Block.calculate_hash (b : Block) : String :=
  let transactions_data := String.join (b.transactions.map Transaction.hash)
  sha256Hex (Nat.repr b.index ++ Nat.repr b.timestamp ++ transactions_data ++
    b.previous_hash ++ Nat.repr b.nonce)

/-- `Block::new`: build the block with empty hash and zero nonce, then fill
in `calculate_hash`. -/
def Block.new (index timestamp : Nat) (transactions : List Transaction)
    (previous_hash : String) : Block :=
  let b : Block := ⟨index, timestamp, transactions, previous_hash, "", 0⟩
  { b with hash := b.calculate_hash }

/-- `"0".repeat(difficulty)`, the PoW target string. -/
def zeroTarget (difficulty : Nat) : String :=
  String.mk (List.replicate difficulty '0')

/-- `str::starts_with`, computed on the character lists. -/
def strStartsWith (s pre : String) : Bool := pre.data.isPrefixOf s.data

/-- `Block::is_valid`: the stored hash begins with `difficulty` zeros. -/
def Block.is_valid (b : Block) (difficulty : Nat) : Bool :=
  strStartsWith b.hash (zeroTarget difficulty)

/-- `Block::mine_step`: bump the nonce and recompute the hash. -/
def Block.mine_step (b : Block) : Block :=
  let b' := { b with nonce := b.nonce + 1 }
  { b' with hash := b'.calculate_hash }

/-- `create_genesis_block` (`src/blockchain.rs`). -/
def create_genesis_block : Block :=
  ⟨0, 0, [], "0", "00000000000000000000000000000000", 0⟩

/-! ## The blockchain (`src/blockchain.rs`) -/

def MAX_SUPPLY : Nat := 21000000

def REWARD : Nat := 5

structure Blockchain where
  chain : List Block
  difficulty : Nat
  total_supply : Nat
deriving DecidableEq

/-- `Blockchain::new`: genesis only, difficulty 5, zero supply. -/
def Blockchain.new : Blockchain := ⟨[create_genesis_block], 5, 0⟩

/-- The body of `Blockchain::is_valid_chain`'s loop, checking each block
after the first against its predecessor: previous-hash linkage and hash
recomputation (no difficulty check, no index check). -/
def validLinks : Block → List Block → Bool
  | _, [] => true
  | prev, cur :: rest =>
    if cur.previous_hash != prev.hash || cur.hash != cur.calculate_hash then false
    else validLinks cur rest

/-- `Blockchain::is_valid_chain` (a static method over a block slice). -/
def is_valid_chain : List Block → Bool
  | [] => true
  | b :: rest => validLinks b rest

/-- `Blockchain::get_miner_transaction`. Never called anywhere in the
source; `now` stands for `chrono::Utc::now().timestamp()`. -/
def Blockchain.get_miner_transaction (bc : Blockchain) (miner_address : String)
    (fees : ℚ) (now : ℤ) : Option Transaction :=
  if bc.total_supply ≤ MAX_SUPPLY then
    some ⟨"COINBASE", miner_address, (REWARD : ℚ) + fees, 0, now, none⟩
  else none

/-- `Blockchain::add_block`: push iff the tip's hash matches the new block's
`previous_hash` (the `unwrap` on an empty chain is modelled as `none`). -/
def Blockchain.add_block (bc : Blockchain) (new_block : Block) :
    Option (Blockchain × Bool) :=
  match bc.chain.getLast? with
  | none => none
  | some last_block =>
    if last_block.hash == new_block.previous_hash then
      some ({ bc with chain := bc.chain ++ [new_block] }, true)
    else some (bc, false)

/-- `Blockchain::is_valid_new_block`: previous-hash linkage against the tip,
hash recomputation, PoW target, and signature verification for every
non-COINBASE transaction. There is no index check. -/
def Blockchain.is_valid_new_block (sigOk : Transaction → String → Bool)
    (bc : Blockchain) (block : Block) : Bool :=
  match bc.chain.getLast? with
  | some last_block =>
    if block.previous_hash != last_block.hash then false
    else
      let calculated_hash := block.calculate_hash
      if block.hash != calculated_hash ||
          !(strStartsWith block.hash (zeroTarget bc.difficulty)) then false
      else
        block.transactions.all fun tx =>
          tx.sender == "COINBASE" || Transaction.verify sigOk tx
  | none => false

/-- `Blockchain::replace_chain`: wholesale replacement of the chain vector,
with no validation of its own. -/
def Blockchain.replace_chain (bc : Blockchain) (new_chain : List Block) :
    Blockchain :=
  { bc with chain := new_chain }

/-- `Blockchain::prepare_block_for_mining`: sum the fees, then build a fresh
block on the tip with index `last.index + 1`; `now` stands for
`chrono::Utc::now().timestamp()`. Returns the block, the fee sum and the
difficulty (the `unwrap` on an empty chain is modelled as `none`). -/
def Blockchain.prepare_block_for_mining (bc : Blockchain) (now : Nat)
    (data : List Transaction) : Option (Block × ℚ × Nat) :=
  let fees := data.foldl (fun acc tx => acc + tx.fee) 0
  match bc.chain.getLast? with
  | none => none
  | some last_block =>
    let new_index := last_block.index + 1
    some (Block.new new_index now data last_block.hash, fees, bc.difficulty)

/-! ## Reachable node states

The chain is mutated in exactly three places in the source:

* `Sync::sync_with_peers` (`src/sync.rs`): replace the chain by a peer
  chain that is strictly longer and passes `is_valid_chain`;
* `ServerHandler::handle_new_block` (`src/server.rs`): append a peer block
  that passes `is_valid_new_block` (the `NEW_BLOCK` arm additionally
  requires `tip.index < block.index` and `tip.hash ≠ block.hash`, which
  only restricts the transition further);
* the miner's commit path (`src/miner.rs`): append a locally mined block
  after re-checking `is_valid_new_block`.

`Step` has one constructor per kind of mutation; server and miner appends
coincide after dropping the server's extra (purely restrictive) guards, so
`append` covers both. -/

inductive Step (sigOk : Transaction → String → Bool) :
    Blockchain → Blockchain → Prop
  | replace (bc : Blockchain) (c : List Block) :
      is_valid_chain c = true →
      bc.chain.length < c.length →
      Step sigOk bc (bc.replace_chain c)
  | append (bc : Blockchain) (b : Block) :
      bc.is_valid_new_block sigOk b = true →
      Step sigOk bc { bc with chain := bc.chain ++ [b] }

/-- States reachable from the freshly constructed node. -/
inductive Reachable (sigOk : Transaction → String → Bool) : Blockchain → Prop
  | init : Reachable sigOk Blockchain.new
  | step {bc bc' : Blockchain} :
      Reachable sigOk bc → Step sigOk bc bc' → Reachable sigOk bc'

/-! ### What `is_valid_chain` and `is_valid_new_block` actually guarantee -/

theorem validLinks_sound (prev : Block) (rest : List Block)
    (h : validLinks prev rest = true) :
    List.Chain' (fun p cur => cur.previous_hash = p.hash) (prev :: rest) ∧
    ∀ b ∈ rest, b.hash = b.calculate_hash := by
  induction rest generalizing prev with
  | nil => simp
  | cons cur rest ih =>
    rw [validLinks] at h
    split at h
    · exact absurd h (by simp)
    · rename_i hcond
      simp only [Bool.or_eq_true, bne_iff_ne, ne_eq, not_or, not_not] at hcond
      obtain ⟨h1, h2⟩ := hcond
      obtain ⟨hc, hh⟩ := ih cur h
      refine ⟨List.chain'_cons.mpr ⟨h1, hc⟩, ?_⟩
      intro b hb
      rcases List.mem_cons.mp hb with rfl | hb
      · exact h2
      · exact hh b hb

theorem is_valid_chain_sound (c : List Block) (h : is_valid_chain c = true) :
    List.Chain' (fun p cur => cur.previous_hash = p.hash) c ∧
    ∀ b ∈ c.drop 1, b.hash = b.calculate_hash := by
  cases c with
  | nil => simp
  | cons b rest =>
    rw [is_valid_chain] at h
    simpa using validLinks_sound b rest h

theorem is_valid_new_block_sound (sigOk : Transaction → String → Bool)
    (bc : Blockchain) (b : Block)
    (h : bc.is_valid_new_block sigOk b = true) :
    ∃ last, bc.chain.getLast? = some last ∧ b.previous_hash = last.hash ∧
      b.hash = b.calculate_hash ∧
      strStartsWith b.hash (zeroTarget bc.difficulty) = true := by
  rw [Blockchain.is_valid_new_block] at h
  rcases hl : bc.chain.getLast? with _ | last <;> rw [hl] at h
  · exact absurd h (by simp)
  · refine ⟨last, rfl, ?_⟩
    by_cases h1 : b.previous_hash = last.hash
    · by_cases h2 : b.hash = b.calculate_hash
      · by_cases h3 : strStartsWith b.hash (zeroTarget bc.difficulty) = true
        · exact ⟨h1, h2, h3⟩
        · simp [h1, h2, bne_iff_ne] at h
          exact ⟨h1, h2, h2.symm ▸ h.1⟩
      · simp [h1, h2, bne_iff_ne] at h
    · simp [h1, bne_iff_ne] at h

/-- The structural invariant every reachable chain satisfies: adjacent
blocks are hash-linked, and every block after position 0 stores its own
recomputed hash. Neither the PoW target nor index contiguity is part of it,
because `is_valid_chain` (the only gate on chain replacement) checks
neither. -/
theorem reachable_inv (sigOk : Transaction → String → Bool) (bc : Blockchain)
    (h : Reachable sigOk bc) :
    List.Chain' (fun p cur => cur.previous_hash = p.hash) bc.chain ∧
    ∀ b ∈ bc.chain.drop 1, b.hash = b.calculate_hash := by
  induction h with
  | init => simp [Blockchain.new]
  | @step bc bc' hr hs ih =>
    cases hs with
    | replace c hvalid hlen => exact is_valid_chain_sound c hvalid
    | append b hvb =>
      obtain ⟨last, hlast, hprev, hhash, _⟩ := is_valid_new_block_sound sigOk bc b hvb
      obtain ⟨ihc, ihh⟩ := ih
      have hne : bc.chain ≠ [] := by
        intro hnil; rw [hnil] at hlast; exact absurd hlast (by simp)
      have hlen1 : 1 ≤ bc.chain.length :=
        Nat.one_le_iff_ne_zero.mpr fun h0 => hne (List.length_eq_zero.mp h0)
      constructor
      · refine List.Chain'.append ihc (List.chain'_singleton b) ?_
        intro x hx y hy
        rw [Option.mem_def, hlast, Option.some.injEq] at hx
        rw [Option.mem_def, List.head?_cons, Option.some.injEq] at hy
        subst hx; subst hy
        exact hprev
      · intro b' hb'
        rw [List.drop_append_of_le_length hlen1] at hb'
        rcases List.mem_append.mp hb' with hb' | hb'
        · exact ihh b' hb'
        · simp only [List.mem_singleton] at hb'
          exact hb' ▸ hhash

/-! ### A peer chain that passes `is_valid_chain` with neither PoW nor
contiguous indices

`badBlock` stores its genuinely recomputed SHA-256 hash, links to the
genesis hash, but has index 7 and a hash with no leading zeros. The sync
loop accepts `[genesis, badBlock]` because it is longer than the initial
chain and `is_valid_chain` checks only linkage and hash recomputation. -/

def badBlock : Block :=
  ⟨7, 0, [], "00000000000000000000000000000000",
   "4edc9a22fc5a1c3a1e46033d53a2e2dadab309762c890dd02e2b1c87ac24a07a", 0⟩

def badChain : List Block := [create_genesis_block, badBlock]

/-- A signature oracle that rejects everything (any fixed oracle works for
the counterexample states, which contain no transactions). -/
def sigNone : Transaction → String → Bool := fun _ _ => false

def badState : Blockchain := Blockchain.new.replace_chain badChain

theorem badState_reachable : Reachable sigNone badState :=
  Reachable.step Reachable.init
    (Step.replace Blockchain.new badChain (by decide) (by decide))

/-- C1. The claim asserts that in every reachable state every non-genesis
block both stores its recomputed hash and meets the PoW target
(`difficulty` leading zeros), in particular across `is_valid_chain`-gated
replacements. The PoW half is false: `is_valid_chain` never checks the
target, so the sync loop can install `badState`, whose non-genesis block
`badBlock` stores a correct hash with no leading zero. -/
theorem chain_difficulty_not_invariant :
    Reachable sigNone badState ∧
    badBlock ∈ badState.chain.drop 1 ∧
    badBlock.is_valid badState.difficulty = false :=
  ⟨badState_reachable, by decide, by decide⟩

/-- C1 (amended). In every reachable state, every block after position 0
satisfies `recompute_hash(block) == block.hash`; the leading-zeros property
is guaranteed only for appended blocks, not across chain replacement, since
`is_valid_chain` does not check the difficulty target. -/
theorem chain_hash_invariant (sigOk : Transaction → String → Bool)
    (bc : Blockchain) (h : Reachable sigOk bc) :
    ∀ b ∈ bc.chain.drop 1, b.hash = b.calculate_hash :=
  (reachable_inv sigOk bc h).2

/-- Witness for `chain_hash_invariant` at the concrete reachable state
`badState` and its non-genesis block `badBlock`. -/
theorem chain_hash_invariant_witness :
    badBlock.hash = badBlock.calculate_hash :=
  chain_hash_invariant sigNone badState badState_reachable badBlock (by decide)

/-- C2. The claim asserts that every reachable state has
`cur.index == prev.index + 1` for each adjacent pair. This is false:
neither `is_valid_chain` (gating replacements) nor `is_valid_new_block`
(gating appends) inspects the index, so the reachable state `badState` has
adjacent indices 0 and 7. -/
theorem chain_index_counterexample :
    Reachable sigNone badState ∧
    ¬ List.Chain' (fun p cur => cur.index = p.index + 1) badState.chain :=
  ⟨badState_reachable, by
    intro hch
    have hidx : badBlock.index = create_genesis_block.index + 1 :=
      (List.chain'_cons.mp hch).1
    simp [badBlock, create_genesis_block] at hidx⟩

/-- C2 (amended). In every reachable state, every adjacent pair `(prev,
cur)` satisfies `cur.previous_hash == prev.hash`; the index-contiguity half
of the claim does not hold because no validation path checks it. -/
theorem chain_link_invariant (sigOk : Transaction → String → Bool)
    (bc : Blockchain) (h : Reachable sigOk bc) :
    List.Chain' (fun p cur => cur.previous_hash = p.hash) bc.chain :=
  (reachable_inv sigOk bc h).1

/-- Witness for `chain_link_invariant` at the concrete reachable state
`badState`. -/
theorem chain_link_invariant_witness :
    List.Chain' (fun p cur => cur.previous_hash = p.hash) badState.chain :=
  chain_link_invariant sigNone badState badState_reachable

/-! ## The transaction pool (`src/pool.rs`)

The `BinaryHeap<Transaction>` is modelled as a list kept sorted in pop
order (`txGe`-descending): `push` is ordered insertion and `pop` takes the
head, matching the heap's pop sequence. The `HashMap`s are association
lists in insertion order (`insert` replaces any entry with the same key)
and the `HashSet` of tombstones is a duplicate-free list. -/

abbrev TxMap := List (String × Transaction)

def containsKey (k : String) (m : TxMap) : Bool := m.any fun p => p.1 == k

def eraseKey (k : String) (m : TxMap) : TxMap := m.filter fun p => p.1 != k

/-- `HashMap::insert`: at most one entry per key. -/
def insertKV (k : String) (v : Transaction) (m : TxMap) : TxMap :=
  eraseKey k m ++ [(k, v)]

/-- `HashSet::insert` on the tombstone set. -/
def insertSet (k : String) (s : List String) : List String :=
  if s.contains k then s else s ++ [k]

structure TransactionPool where
  heap : List Transaction
  tx_map : TxMap
  removed_set : List String
  pending_map : TxMap
deriving DecidableEq

def TransactionPool.new : TransactionPool := ⟨[], [], [], []⟩

/-- `TransactionPool::transaction_already_exists`. -/
def TransactionPool.transaction_already_exists (p : TransactionPool)
    (transaction : Transaction) : Bool :=
  containsKey transaction.hash p.tx_map || containsKey transaction.hash p.pending_map

/-- `TransactionPool::add_transaction`: skip if the hash is already in the
live map or the pending map; otherwise insert into the live map and push on
the heap. -/
def TransactionPool.add_transaction (transaction : Transaction)
    (p : TransactionPool) : TransactionPool :=
  let tx_hash := transaction.hash
  if containsKey tx_hash p.tx_map || containsKey tx_hash p.pending_map then p
  else
    { p with
      tx_map := insertKV tx_hash transaction p.tx_map,
      heap := List.orderedInsert txGe transaction p.heap }

/-- The `while let Some(tx) = heap.pop()` loop of
`TransactionPool::get_next_transaction`: tombstoned entries are discarded
(consuming the tombstone); the first non-tombstoned entry is removed from
the live map and returned. -/
def popLoop : List Transaction → List String → TxMap →
    Option Transaction × List Transaction × List String × TxMap
  | [], removed, txm => (none, [], removed, txm)
  | tx :: rest, removed, txm =>
    let tx_hash := tx.hash
    if removed.contains tx_hash then popLoop rest (removed.erase tx_hash) txm
    else (some tx, rest, removed, eraseKey tx_hash txm)

def TransactionPool.get_next_transaction (p : TransactionPool) :
    Option Transaction × TransactionPool :=
  match popLoop p.heap p.removed_set p.tx_map with
  | (res, heap', removed', txm') =>
    (res, { p with heap := heap', removed_set := removed', tx_map := txm' })

/-- `TransactionPool::get_transactions_to_mine`: pop up to `amount`
transactions, parking each in the pending map. -/
def TransactionPool.get_transactions_to_mine (amount : Nat)
    (p : TransactionPool) : List Transaction × TransactionPool :=
  match amount with
  | 0 => ([], p)
  | amount + 1 =>
    match p.get_next_transaction with
    | (none, p') => ([], p')
    | (some tx, p') =>
      let p'' := { p' with pending_map := insertKV tx.hash tx p'.pending_map }
      let (rest, pf) := TransactionPool.get_transactions_to_mine amount p''
      (tx :: rest, pf)

/-- `TransactionPool::process_mined_transactions`. -/
def TransactionPool.process_mined_transactions (mined_by_self : Bool)
    (confirmed_transactions : List Transaction) (p : TransactionPool) :
    TransactionPool :=
  if mined_by_self then { p with pending_map := [] }
  else
    let p1 := confirmed_transactions.foldl
      (fun q tx =>
        let tx_hash := tx.hash
        if containsKey tx_hash q.pending_map then
          { q with pending_map := eraseKey tx_hash q.pending_map }
        else if containsKey tx.hash q.tx_map then
          { q with
            tx_map := eraseKey tx.hash q.tx_map,
            removed_set := insertSet tx.hash q.removed_set }
        else q) p
    if p1.pending_map.isEmpty then p1
    else
      let tx_to_add := p1.pending_map.map Prod.snd
      let p2 := { p1 with pending_map := [] }
      tx_to_add.foldl (fun q tx => q.add_transaction tx) p2

/-- Pool reached by adding `txs` in order to the fresh pool. -/
def addAll (txs : List Transaction) : TransactionPool :=
  txs.foldl (fun p tx => p.add_transaction tx) TransactionPool.new

/-! ### Pool lemmas: adds keep the heap sorted and never tombstone -/

theorem add_transaction_removed (tx : Transaction) (p : TransactionPool) :
    (p.add_transaction tx).removed_set = p.removed_set := by
  unfold TransactionPool.add_transaction
  by_cases hc : (containsKey tx.hash p.tx_map || containsKey tx.hash p.pending_map) = true <;>
    simp [hc]

theorem add_transaction_sorted (tx : Transaction) (p : TransactionPool)
    (h : List.Sorted txGe p.heap) :
    List.Sorted txGe (p.add_transaction tx).heap := by
  unfold TransactionPool.add_transaction
  by_cases hc : (containsKey tx.hash p.tx_map || containsKey tx.hash p.pending_map) = true
  · simpa [hc] using h
  · simpa [hc] using List.Sorted.orderedInsert tx p.heap h

theorem foldl_add_removed (txs : List Transaction) (p : TransactionPool) :
    (txs.foldl (fun q tx => q.add_transaction tx) p).removed_set =
      p.removed_set := by
  induction txs generalizing p with
  | nil => rfl
  | cons t ts ih => rw [List.foldl_cons, ih, add_transaction_removed]

theorem foldl_add_sorted (txs : List Transaction) (p : TransactionPool)
    (h : List.Sorted txGe p.heap) :
    List.Sorted txGe ((txs.foldl (fun q tx => q.add_transaction tx) p)).heap := by
  induction txs generalizing p with
  | nil => exact h
  | cons t ts ih => exact ih _ (add_transaction_sorted t p h)

theorem addAll_removed (txs : List Transaction) : (addAll txs).removed_set = [] :=
  foldl_add_removed txs TransactionPool.new

theorem addAll_sorted (txs : List Transaction) :
    List.Sorted txGe (addAll txs).heap :=
  foldl_add_sorted txs TransactionPool.new (List.sorted_nil)

/-- With no tombstones, `get_transactions_to_mine` returns exactly the
first `n` heap elements in heap (pop) order. -/
theorem take_to_mine_eq_take (n : Nat) (p : TransactionPool)
    (h : p.removed_set = []) :
    (p.get_transactions_to_mine n).1 = p.heap.take n := by
  induction n generalizing p with
  | zero => rfl
  | succ n ih =>
    cases hh : p.heap with
    | nil =>
      simp [TransactionPool.get_transactions_to_mine,
        TransactionPool.get_next_transaction, popLoop, hh, h]
    | cons tx rest =>
      simp only [TransactionPool.get_transactions_to_mine,
        TransactionPool.get_next_transaction, popLoop, hh, h,
        List.contains_nil, Bool.false_eq_true, if_false, List.take_succ_cons]
      rw [ih _ rfl]

/-- The strict heap ranking, `Ordering::Greater` under the source's `Ord`. -/
theorem txGt_iff (a b : Transaction) :
    txCmp a b = .gt ↔ b.fee < a.fee ∨ (a.fee = b.fee ∧ a.timestamp < b.timestamp) := by
  unfold txCmp cmpQ cmpZ
  rcases lt_trichotomy a.fee b.fee with h | h | h
  · simp [h, Ordering.then, h.asymm, h.ne]
  · rcases lt_trichotomy a.timestamp b.timestamp with ht | ht | ht
    · simp [h, Ordering.then, ht.asymm, ht.ne', ht]
    · simp [h, Ordering.then, ht, lt_irrefl]
    · simp [h, Ordering.then, ht, ht.asymm]
  · simp [h.asymm, h.ne', Ordering.then, h]

/-- C4. In every mempool state reachable by add operations, the heap order
ranks `a` strictly above `b` iff `a.fee > b.fee`, or `a.fee == b.fee` and
`a.timestamp < b.timestamp`; and `get_transactions_to_mine n` returns the
transactions in non-increasing fee order, ties broken by non-decreasing
timestamp (`txPriorGe`-sorted). -/
theorem take_to_mine_priority_sorted (txs : List Transaction) (n : Nat) :
    (∀ a b : Transaction, txCmp a b = .gt ↔
        b.fee < a.fee ∨ (a.fee = b.fee ∧ a.timestamp < b.timestamp)) ∧
    List.Sorted txPriorGe ((addAll txs).get_transactions_to_mine n).1 := by
  refine ⟨txGt_iff, ?_⟩
  rw [take_to_mine_eq_take n (addAll txs) (addAll_removed txs)]
  have hs : List.Sorted txGe ((addAll txs).heap.take n) :=
    (addAll_sorted txs).sublist (List.take_sublist n _)
  exact hs.imp fun hab => (txGe_iff _ _).mp hab

/-! ### `process_mined(true, L)` and `get_next_transaction` -/

def t5 : Transaction := ⟨"carol", "dave", 2, 1, 5, none⟩

/-- C5. The claim, refuted: `process_mined_transactions(true, L)` only
clears the pending map, so a transaction of `L` that sits in the live map
(`tx_map`) survives the call. Here `t5` has just been added (so it is
live), yet the claim requires it to be gone. -/
theorem process_mined_self_keeps_live_tx :
    containsKey t5.hash
      (TransactionPool.process_mined_transactions true [t5]
        (TransactionPool.add_transaction t5 TransactionPool.new)).tx_map = true := by
  decide

/-- C5 (amended). `process_mined(true, L)` clears the pending map and
leaves the live map untouched; hence no transaction of `L` remains in the
pending map, and a transaction of `L` is absent from both maps afterwards
provided it was absent from the live map before the call (as is the case
when `L` was obtained from `take_for_mining`). -/
theorem process_mined_self_spec (p : TransactionPool) (L : List Transaction) :
    (TransactionPool.process_mined_transactions true L p).pending_map = [] ∧
    (TransactionPool.process_mined_transactions true L p).tx_map = p.tx_map ∧
    (∀ tx ∈ L, containsKey tx.hash p.tx_map = false →
      containsKey tx.hash
        (TransactionPool.process_mined_transactions true L p).pending_map = false ∧
      containsKey tx.hash
        (TransactionPool.process_mined_transactions true L p).tx_map = false) := by
  refine ⟨rfl, rfl, ?_⟩
  intro tx _ h
  exact ⟨by simp [TransactionPool.process_mined_transactions, containsKey], h⟩

/-- Witness for `process_mined_self_spec` at a concrete pool and list. -/
theorem process_mined_self_spec_witness :
    containsKey t5.hash
      (TransactionPool.process_mined_transactions true [t5]
        TransactionPool.new).pending_map = false ∧
    containsKey t5.hash
      (TransactionPool.process_mined_transactions true [t5]
        TransactionPool.new).tx_map = false :=
  (process_mined_self_spec TransactionPool.new [t5]).2.2 t5 (by decide) (by decide)

theorem popLoop_some (heap : List Transaction) (removed : List String)
    (txm : TxMap) (tx : Transaction) (h' : List Transaction)
    (r' : List String) (m' : TxMap)
    (h : popLoop heap removed txm = (some tx, h', r', m')) :
    tx ∈ heap ∧ m' = eraseKey tx.hash txm := by
  induction heap generalizing removed with
  | nil => exact absurd h (by simp [popLoop])
  | cons t rest ih =>
    rw [popLoop] at h
    split at h
    · obtain ⟨htx, hm⟩ := ih _ h
      exact ⟨List.mem_cons_of_mem _ htx, hm⟩
    · simp only [Prod.mk.injEq, Option.some.injEq] at h
      obtain ⟨rfl, -, -, rfl⟩ := h
      exact ⟨List.mem_cons_self _ _, rfl⟩

theorem popLoop_none (heap : List Transaction) (removed : List String)
    (txm : TxMap) (h' : List Transaction) (r' : List String) (m' : TxMap)
    (h : popLoop heap removed txm = (none, h', r', m')) : h' = [] := by
  induction heap generalizing removed with
  | nil =>
    simp only [popLoop, Prod.mk.injEq] at h
    exact h.2.1.symm
  | cons t rest ih =>
    rw [popLoop] at h
    split at h
    · exact ih _ h
    · exact absurd h (by simp)

/-- C6 (amended). `get_next_transaction` pops the heap until it finds a
transaction whose hash is not tombstoned (consuming each encountered
tombstone), removes that hash from the live map and returns the
transaction; it returns `None` exactly by exhausting the heap. It does
*not* require the returned transaction to be present in the live map. -/
theorem get_next_transaction_spec (p : TransactionPool) :
    (∀ tx p', p.get_next_transaction = (some tx, p') →
        tx ∈ p.heap ∧ p'.tx_map = eraseKey tx.hash p.tx_map ∧
        p'.pending_map = p.pending_map) ∧
    (∀ p', p.get_next_transaction = (none, p') → p'.heap = []) := by
  constructor
  · intro tx p' h
    rw [TransactionPool.get_next_transaction] at h
    rcases hpl : popLoop p.heap p.removed_set p.tx_map with ⟨res, h', r', m'⟩
    rw [hpl] at h
    simp only [Prod.mk.injEq] at h
    obtain ⟨rfl, rfl⟩ := h
    obtain ⟨htx, hm⟩ := popLoop_some _ _ _ _ _ _ _ hpl
    exact ⟨htx, hm, rfl⟩
  · intro p' h
    rw [TransactionPool.get_next_transaction] at h
    rcases hpl : popLoop p.heap p.removed_set p.tx_map with ⟨res, h', r', m'⟩
    rw [hpl] at h
    simp only [Prod.mk.injEq] at h
    obtain ⟨rfl, rfl⟩ := h
    exact popLoop_none _ _ _ _ _ _ hpl

def t6 : Transaction := ⟨"alice", "bob", 1, 1, 0, none⟩

/-- The pool after `add t6; process_mined(false,[t6]); add t6;
process_mined(false,[t6])`: its heap holds `t6` twice, its tombstone set
holds `t6.hash` once, and both maps are empty. -/
def p6 : TransactionPool :=
  TransactionPool.process_mined_transactions false [t6]
    (TransactionPool.add_transaction t6
      (TransactionPool.process_mined_transactions false [t6]
        (TransactionPool.add_transaction t6 TransactionPool.new)))

/-- C6, refuted on the "in particular" part: in the reachable pool state
`p6` the live map is empty, yet `get_next_transaction` still returns `t6`
(the single tombstone is consumed by the first heap copy and the second
copy is returned without any live-map membership check). -/
theorem get_next_returns_non_live :
    p6.tx_map = [] ∧ (p6.get_next_transaction).1 = some t6 := by
  decide

/-- Witness for `get_next_transaction_spec` at the concrete pool `p6`. -/
theorem get_next_transaction_spec_witness :
    t6 ∈ p6.heap ∧
    ((p6.get_next_transaction).2).tx_map = eraseKey t6.hash p6.tx_map ∧
    ((p6.get_next_transaction).2).pending_map = p6.pending_map :=
  (get_next_transaction_spec p6).1 t6 (p6.get_next_transaction).2 (by decide)

/-! ### Restoring the pool after an empty confirmation (C7) -/

theorem eraseKey_of_not_mem (k : String) (m : TxMap)
    (h : containsKey k m = false) : eraseKey k m = m := by
  rw [eraseKey, List.filter_eq_self]
  intro a ha
  simp only [containsKey, List.any_eq_false] at h
  simpa [bne_iff_ne] using h a ha

theorem insertKV_of_not_mem (k : String) (v : Transaction) (m : TxMap)
    (h : containsKey k m = false) : insertKV k v m = m ++ [(k, v)] := by
  rw [insertKV, eraseKey_of_not_mem k m h]

/-- Adding transactions with fresh, pairwise-distinct hashes: the live map
grows by exactly the corresponding key/value pairs, the heap by ordered
insertions, and the tombstone and pending structures are untouched. -/
theorem foldl_add_struct (txs : List Transaction) (p : TransactionPool)
    (hnd : (txs.map Transaction.hash).Nodup)
    (habs : ∀ t ∈ txs, containsKey t.hash p.tx_map = false ∧
                       containsKey t.hash p.pending_map = false) :
    txs.foldl (fun q tx => q.add_transaction tx) p =
      { heap := txs.foldl (fun acc t => List.orderedInsert txGe t acc) p.heap,
        tx_map := p.tx_map ++ txs.map (fun t => (t.hash, t)),
        removed_set := p.removed_set,
        pending_map := p.pending_map } := by
  induction txs generalizing p with
  | nil => simp
  | cons t ts ih =>
    obtain ⟨hm, hp⟩ := habs t (List.mem_cons_self _ _)
    have hfresh : ∀ t' ∈ ts, t'.hash ≠ t.hash := by
      intro t' ht' heq
      have : t.hash ∈ ts.map Transaction.hash :=
        List.mem_map.mpr ⟨t', ht', heq⟩
      exact (List.nodup_cons.mp (by simpa using hnd)).1 this
    have hadd : p.add_transaction t =
        { heap := List.orderedInsert txGe t p.heap,
          tx_map := p.tx_map ++ [(t.hash, t)],
          removed_set := p.removed_set, pending_map := p.pending_map } := by
      unfold TransactionPool.add_transaction
      simp [hm, hp, insertKV_of_not_mem t.hash t p.tx_map hm]
    have habs' : ∀ t' ∈ ts,
        containsKey t'.hash (p.tx_map ++ [(t.hash, t)]) = false ∧
        containsKey t'.hash p.pending_map = false := by
      intro t' ht'
      refine ⟨?_, (habs t' (List.mem_cons_of_mem _ ht')).2⟩
      have h1 := (habs t' (List.mem_cons_of_mem _ ht')).1
      rw [containsKey] at h1 ⊢
      rw [List.any_append, h1]
      simp [Ne.symm (hfresh t' ht')]
    rw [List.foldl_cons, hadd,
      ih _ ((List.nodup_cons.mp (by simpa using hnd)).2) habs']
    simp

theorem foldl_orderedInsert_perm (txs : List Transaction) (h : List Transaction) :
    (txs.foldl (fun acc t => List.orderedInsert txGe t acc) h).Perm (txs ++ h) := by
  induction txs generalizing h with
  | nil => simp
  | cons t ts ih =>
    refine (ih _).trans ?_
    refine (List.Perm.append_left ts (List.perm_orderedInsert _ t h)).trans ?_
    exact List.perm_middle

/-- `addAll` on transactions with pairwise-distinct hashes, in closed form. -/
theorem addAll_struct (txs : List Transaction)
    (hnd : (txs.map Transaction.hash).Nodup) :
    addAll txs =
      { heap := txs.foldl (fun acc t => List.orderedInsert txGe t acc) [],
        tx_map := txs.map (fun t => (t.hash, t)),
        removed_set := [], pending_map := [] } := by
  have := foldl_add_struct txs TransactionPool.new hnd
    (by intro t _; exact ⟨rfl, rfl⟩)
  simpa [TransactionPool.new, addAll] using this

theorem addAll_heap_perm (txs : List Transaction)
    (hnd : (txs.map Transaction.hash).Nodup) :
    (addAll txs).heap.Perm txs := by
  rw [addAll_struct txs hnd]
  simpa using foldl_orderedInsert_perm txs []

/-- With no tombstones, the state after `get_transactions_to_mine n`:
the taken prefix is dropped from the heap, erased from the live map, and
parked (with its hashes) in the pending map. -/
theorem take_to_mine_state (n : Nat) (p : TransactionPool)
    (h : p.removed_set = []) :
    (p.get_transactions_to_mine n).2 =
      { heap := p.heap.drop n,
        tx_map := (p.heap.take n).foldl (fun m t => eraseKey t.hash m) p.tx_map,
        removed_set := [],
        pending_map :=
          (p.heap.take n).foldl (fun m t => insertKV t.hash t m) p.pending_map } := by
  induction n generalizing p with
  | zero =>
    rcases p with ⟨hp, tm, rs, pm⟩
    simp only at h
    subst h
    rfl
  | succ n ih =>
    rcases p with ⟨hp, tm, rs, pm⟩
    simp only at h
    subst h
    cases hp with
    | nil => rfl
    | cons tx rest =>
      have hstep :
          TransactionPool.get_transactions_to_mine (n + 1) ⟨tx :: rest, tm, [], pm⟩ =
            ((tx :: (TransactionPool.get_transactions_to_mine n
                ⟨rest, eraseKey tx.hash tm, [], insertKV tx.hash tx pm⟩).1),
             (TransactionPool.get_transactions_to_mine n
                ⟨rest, eraseKey tx.hash tm, [], insertKV tx.hash tx pm⟩).2) := by
        simp [TransactionPool.get_transactions_to_mine,
          TransactionPool.get_next_transaction, popLoop]
      rw [hstep]
      exact ih ⟨rest, eraseKey tx.hash tm, [], insertKV tx.hash tx pm⟩ rfl

/-- Folding `eraseKey` over a list of transactions filters out every entry
whose key is among their hashes. -/
theorem foldl_eraseKey_eq_filter (ts : List Transaction) (m : TxMap) :
    ts.foldl (fun m t => eraseKey t.hash m) m =
      m.filter fun q => !((ts.map Transaction.hash).contains q.1) := by
  induction ts generalizing m with
  | nil => simp
  | cons t ts ih =>
    rw [List.foldl_cons, ih, eraseKey, List.filter_filter]
    apply List.filter_congr
    intro q _
    rw [List.map_cons, List.contains_cons]
    cases hq : (q.1 == t.hash) <;>
      cases hc : (ts.map Transaction.hash).contains q.1 <;>
        simp [hq, hc, bne]

theorem filter_keys_nil (m : TxMap) (hs : List String)
    (hcov : ∀ q ∈ m, hs.contains q.1 = true) :
    (m.filter fun q => !(hs.contains q.1)) = [] := by
  rw [List.filter_eq_nil_iff]
  intro q hq
  rw [hcov q hq]
  simp

/-- Folding `insertKV` over transactions whose hashes are fresh and
pairwise distinct appends the corresponding pairs. -/
theorem foldl_insertKV_eq_append (ts : List Transaction) (m : TxMap)
    (hnd : (ts.map Transaction.hash).Nodup)
    (habs : ∀ t ∈ ts, containsKey t.hash m = false) :
    ts.foldl (fun m t => insertKV t.hash t m) m =
      m ++ ts.map fun t => (t.hash, t) := by
  induction ts generalizing m with
  | nil => simp
  | cons t ts ih =>
    have hfresh : ∀ t' ∈ ts, t'.hash ≠ t.hash := by
      intro t' ht' heq
      exact (List.nodup_cons.mp (by simpa using hnd)).1
        (List.mem_map.mpr ⟨t', ht', heq⟩)
    have habs' : ∀ t' ∈ ts, containsKey t'.hash (m ++ [(t.hash, t)]) = false := by
      intro t' ht'
      have h1 := habs t' (List.mem_cons_of_mem _ ht')
      rw [containsKey] at h1 ⊢
      rw [List.any_append, h1]
      simp [Ne.symm (hfresh t' ht')]
    rw [List.foldl_cons, insertKV_of_not_mem _ _ _ (habs t (List.mem_cons_self _ _)),
      ih _ ((List.nodup_cons.mp (by simpa using hnd)).2) habs']
    simp

theorem contains_of_mem {a : String} {l : List String} (h : a ∈ l) :
    l.contains a = true := by
  induction l with
  | nil => cases h
  | cons b l ih =>
    rw [List.contains_cons]
    rcases List.mem_cons.mp h with rfl | h
    · simp
    · rw [ih h, Bool.or_true]

theorem addAll_tx_map (txs : List Transaction)
    (hnd : (txs.map Transaction.hash).Nodup) :
    (addAll txs).tx_map = txs.map fun t => (t.hash, t) := by
  rw [addAll_struct txs hnd]

theorem addAll_pending (txs : List Transaction)
    (hnd : (txs.map Transaction.hash).Nodup) :
    (addAll txs).pending_map = [] := by
  rw [addAll_struct txs hnd]

theorem addAll_heap_hash_nodup (txs : List Transaction)
    (hnd : (txs.map Transaction.hash).Nodup) :
    ((addAll txs).heap.map Transaction.hash).Nodup :=
  ((addAll_heap_perm txs hnd).map Transaction.hash).nodup_iff.mpr hnd

/-- `process_mined(false, [])` on a pool whose heap and maps are empty
except for the pending map: every pending transaction is re-added to a
fresh pool (when the pending map is empty both sides are the fresh pool). -/
theorem process_mined_false_empty (pend : TxMap) :
    TransactionPool.process_mined_transactions false [] ⟨[], [], [], pend⟩ =
      (pend.map Prod.snd).foldl (fun q tx => q.add_transaction tx)
        TransactionPool.new := by
  cases pend with
  | nil => rfl
  | cons e pend => rfl

/-- Taking everything out of a freshly filled pool returns the whole heap,
and a subsequent `process_mined(false, [])` rebuilds the pool by re-adding
exactly the taken transactions. -/
theorem take_all_result (txs : List Transaction)
    (hnd : (txs.map Transaction.hash).Nodup) :
    ((addAll txs).get_transactions_to_mine txs.length).1 = (addAll txs).heap ∧
    TransactionPool.process_mined_transactions false []
        ((addAll txs).get_transactions_to_mine txs.length).2 =
      addAll (addAll txs).heap := by
  have hrem := addAll_removed txs
  have hperm := addAll_heap_perm txs hnd
  have hlen : (addAll txs).heap.length = txs.length := hperm.length_eq
  have htake : (addAll txs).heap.take txs.length = (addAll txs).heap := by
    rw [← hlen, List.take_length]
  have h1 : ((addAll txs).get_transactions_to_mine txs.length).1 =
      (addAll txs).heap := by
    rw [take_to_mine_eq_take _ _ hrem, htake]
  refine ⟨h1, ?_⟩
  have hndH := addAll_heap_hash_nodup txs hnd
  have hstate2 : ((addAll txs).get_transactions_to_mine txs.length).2 =
      ⟨[], [], [], (addAll txs).heap.map fun t => (t.hash, t)⟩ := by
    rw [take_to_mine_state _ _ hrem, htake]
    congr 1
    · rw [← hlen, List.drop_length]
    · rw [foldl_eraseKey_eq_filter]
      apply filter_keys_nil
      intro q hq
      rw [addAll_tx_map txs hnd] at hq
      obtain ⟨t, ht, rfl⟩ := List.mem_map.mp hq
      refine contains_of_mem ?_
      exact ((hperm.map Transaction.hash).symm.mem_iff).mp
        (List.mem_map.mpr ⟨t, ht, rfl⟩)
    · rw [addAll_pending txs hnd,
        foldl_insertKV_eq_append _ _ hndH (by intro t _; rfl), List.nil_append]
  rw [hstate2, process_mined_false_empty, List.map_map]
  unfold addAll
  congr 1
  have hfun : (Prod.snd ∘ fun t : Transaction => (t.hash, t)) = id :=
    funext fun t => rfl
  rw [hfun, List.map_id]

/-- C7. Add `k` transactions with pairwise-distinct hashes, take all `k`
for mining, then confirm an empty block (`process_mined(false, [])`): all
`k` transactions are again available, and a second `take_for_mining(k)`
returns exactly the same transactions in the same priority order (both
return sequences are permutations of the added transactions, sorted by the
fee-then-older-timestamp priority). -/
theorem take_restore_take (txs : List Transaction)
    (hnd : (txs.map Transaction.hash).Nodup) :
    ((addAll txs).get_transactions_to_mine txs.length).1.Perm txs ∧
    List.Sorted txPriorGe ((addAll txs).get_transactions_to_mine txs.length).1 ∧
    ((TransactionPool.process_mined_transactions false []
        ((addAll txs).get_transactions_to_mine txs.length).2).get_transactions_to_mine
          txs.length).1.Perm
      ((addAll txs).get_transactions_to_mine txs.length).1 ∧
    List.Sorted txPriorGe
      ((TransactionPool.process_mined_transactions false []
        ((addAll txs).get_transactions_to_mine txs.length).2).get_transactions_to_mine
          txs.length).1 := by
  obtain ⟨h1, h2⟩ := take_all_result txs hnd
  have hperm := addAll_heap_perm txs hnd
  have hndH := addAll_heap_hash_nodup txs hnd
  have hperm2 := addAll_heap_perm (addAll txs).heap hndH
  have hlen2 : (addAll (addAll txs).heap).heap.length = txs.length := by
    rw [hperm2.length_eq, hperm.length_eq]
  have h3 : ((addAll (addAll txs).heap).get_transactions_to_mine txs.length).1 =
      (addAll (addAll txs).heap).heap := by
    rw [take_to_mine_eq_take _ _ (addAll_removed _), ← hlen2, List.take_length]
  refine ⟨?_, ?_, ?_, ?_⟩
  · rw [h1]; exact hperm
  · rw [h1]
    exact (addAll_sorted txs).imp fun hab => (txGe_iff _ _).mp hab
  · rw [h2, h3, h1]; exact hperm2
  · rw [h2, h3]
    exact (addAll_sorted _).imp fun hab => (txGe_iff _ _).mp hab

def t7a : Transaction := ⟨"erin", "frank", 3, 2, 10, none⟩

def t7b : Transaction := ⟨"grace", "heidi", 4, 1, 11, none⟩

/-- Witness for `take_restore_take` on two concrete transactions with
distinct hashes. -/
theorem take_restore_take_witness :
    ([t7a, t7b].map Transaction.hash).Nodup ∧
    (((addAll [t7a, t7b]).get_transactions_to_mine [t7a, t7b].length).1.Perm
        [t7a, t7b] ∧
      List.Sorted txPriorGe
        ((addAll [t7a, t7b]).get_transactions_to_mine [t7a, t7b].length).1 ∧
      ((TransactionPool.process_mined_transactions false []
          ((addAll [t7a, t7b]).get_transactions_to_mine
            [t7a, t7b].length).2).get_transactions_to_mine
            [t7a, t7b].length).1.Perm
        ((addAll [t7a, t7b]).get_transactions_to_mine [t7a, t7b].length).1 ∧
      List.Sorted txPriorGe
        ((TransactionPool.process_mined_transactions false []
          ((addAll [t7a, t7b]).get_transactions_to_mine
            [t7a, t7b].length).2).get_transactions_to_mine
            [t7a, t7b].length).1) :=
  ⟨by decide, take_restore_take [t7a, t7b] (by decide)⟩

/-! ## HTTP submission handlers (`src/handler.rs`)

The handlers are modelled as pure decision functions over the already
fetched balance (`Except` models the `Result` of `get_wallet_balance`),
returning the HTTP status, the resulting pool and the list of broadcast
transactions. -/

inductive HttpStatus where
  | ok
  | badRequest
  | internalServerError
deriving DecidableEq

structure EndpointResult where
  status : HttpStatus
  pool : TransactionPool
  broadcasts : List Transaction
deriving DecidableEq

/-- `submit_transaction` (handler.rs:10-49): verify the signature, fetch
the balance, reject with 400 when `balance < amount + fee`, otherwise add
to the mempool and broadcast. -/
def submit_transaction (sigOk : Transaction → String → Bool)
    (balance : Except Unit ℚ) (tx : Transaction) (p : TransactionPool) :
    EndpointResult :=
  if Transaction.verify sigOk tx then
    match balance with
    | .ok b =>
      if b < tx.amount + tx.fee then ⟨.badRequest, p, []⟩
      else ⟨.ok, p.add_transaction tx, [tx]⟩
    | .error _ => ⟨.internalServerError, p, []⟩
  else ⟨.badRequest, p, []⟩

/-- `sign_and_submit_transaction` (handler.rs:72-116): parse the wallet
(`walletOk` models `Wallet::from_hex_string` succeeding), sign the
transaction (`signed` stands for the produced hex signature), fetch the
balance, reject with 400 when `balance < amount` — the fee is *not* added
here — otherwise add to the mempool and broadcast. -/
def sign_and_submit_transaction (walletOk : Bool) (signed : String)
    (balance : Except Unit ℚ) (tx : Transaction) (p : TransactionPool) :
    EndpointResult :=
  if walletOk then
    let transaction := { tx with signature := some signed }
    match balance with
    | .ok b =>
      if b < transaction.amount then ⟨.badRequest, p, []⟩
      else ⟨.ok, p.add_transaction transaction, [transaction]⟩
    | .error _ => ⟨.internalServerError, p, []⟩
  else ⟨.badRequest, p, []⟩

def t8 : Transaction := ⟨"ivan", "judy", 10, 1, 20, none⟩

/-- C8, refuted for `sign-and-submit`: with balance 10 and a transaction of
amount 10 and fee 1, `balance < amount + fee` holds, yet the endpoint
accepts, mutates the mempool and broadcasts, because its check omits the
fee. -/
theorem sign_and_submit_ignores_fee :
    (10 : ℚ) < t8.amount + t8.fee ∧
    (sign_and_submit_transaction true "aa" (.ok 10) t8
        TransactionPool.new).status = .ok ∧
    (sign_and_submit_transaction true "aa" (.ok 10) t8
        TransactionPool.new).broadcasts ≠ [] := by
  refine ⟨by norm_num [t8], ?_, ?_⟩ <;> decide

/-- C8 (amended). `submit` rejects with 400 whenever
`balance < amount + fee`, leaving the mempool unchanged and broadcasting
nothing; `sign-and-submit` only compares the balance against `amount`
(the fee is not included): it rejects with 400, unchanged and silent, when
`balance < amount`, but accepts, adds to the mempool and broadcasts when
`amount ≤ balance` — even if `balance < amount + fee`. -/
theorem submit_balance_checks (sigOk : Transaction → String → Bool)
    (signed : String) (b : ℚ) (tx : Transaction) (p : TransactionPool)
    (h : b < tx.amount + tx.fee) :
    (submit_transaction sigOk (.ok b) tx p).status = .badRequest ∧
    (submit_transaction sigOk (.ok b) tx p).pool = p ∧
    (submit_transaction sigOk (.ok b) tx p).broadcasts = [] ∧
    (b < tx.amount →
      (sign_and_submit_transaction true signed (.ok b) tx p).status = .badRequest ∧
      (sign_and_submit_transaction true signed (.ok b) tx p).pool = p ∧
      (sign_and_submit_transaction true signed (.ok b) tx p).broadcasts = []) ∧
    (tx.amount ≤ b →
      (sign_and_submit_transaction true signed (.ok b) tx p).status = .ok ∧
      (sign_and_submit_transaction true signed (.ok b) tx p).broadcasts =
        [{ tx with signature := some signed }]) := by
  have hsub : submit_transaction sigOk (.ok b) tx p =
      if Transaction.verify sigOk tx then (⟨.badRequest, p, []⟩ : EndpointResult)
      else ⟨.badRequest, p, []⟩ := by
    rw [submit_transaction]
    by_cases hv : Transaction.verify sigOk tx <;> simp [hv, if_pos h]
  have hsub' : submit_transaction sigOk (.ok b) tx p =
      (⟨.badRequest, p, []⟩ : EndpointResult) := by
    rw [hsub]; split <;> rfl
  refine ⟨by rw [hsub'], by rw [hsub'], by rw [hsub'], ?_, ?_⟩
  · intro hlt
    rw [sign_and_submit_transaction]
    simp [if_pos hlt]
  · intro hle
    rw [sign_and_submit_transaction]
    simp [not_lt.mpr hle]

/-- Witness for `submit_balance_checks` at concrete inputs (balance 10,
amount 10, fee 1). -/
theorem submit_balance_checks_witness :
    (10 : ℚ) < t8.amount + t8.fee ∧
    ((submit_transaction sigNone (.ok 10) t8 TransactionPool.new).status =
        .badRequest ∧
      (submit_transaction sigNone (.ok 10) t8 TransactionPool.new).pool =
        TransactionPool.new ∧
      (submit_transaction sigNone (.ok 10) t8 TransactionPool.new).broadcasts = [] ∧
      ((10 : ℚ) < t8.amount →
        (sign_and_submit_transaction true "aa" (.ok 10) t8
            TransactionPool.new).status = .badRequest ∧
        (sign_and_submit_transaction true "aa" (.ok 10) t8
            TransactionPool.new).pool = TransactionPool.new ∧
        (sign_and_submit_transaction true "aa" (.ok 10) t8
            TransactionPool.new).broadcasts = []) ∧
      (t8.amount ≤ (10 : ℚ) →
        (sign_and_submit_transaction true "aa" (.ok 10) t8
            TransactionPool.new).status = .ok ∧
        (sign_and_submit_transaction true "aa" (.ok 10) t8
            TransactionPool.new).broadcasts =
          [{ t8 with signature := some "aa" }])) :=
  ⟨by norm_num [t8],
    submit_balance_checks sigNone "aa" 10 t8 TransactionPool.new
      (by norm_num [t8])⟩

/-! ## The persistent store (`src/db.rs`)

The sled key-value store is modelled with two association lists: the
transactions keyed by hash, and the per-address index `addr_<address> →
list of transaction hashes`. -/

structure Database where
  txByHash : List (String × Transaction)
  index : List (String × List String)
deriving DecidableEq

def Database.empty : Database := ⟨[], []⟩

def lookupKey {β : Type} (k : String) : List (String × β) → Option β
  | [] => none
  | (k', v) :: rest => if k' == k then some v else lookupKey k rest

def setKey {β : Type} (k : String) (v : β) (m : List (String × β)) :
    List (String × β) :=
  (m.filter fun q => q.1 != k) ++ [(k, v)]

/-- `Database::get_transaction`. -/
def Database.get_transaction (db : Database) (tx_hash : String) :
    Option Transaction :=
  lookupKey tx_hash db.txByHash

/-- `Database::add_transaction_to_index`: append the hash to the key's
list, de-duplicated. -/
def Database.add_transaction_to_index (db : Database) (key : String)
    (tx_hash : String) : Database :=
  let tx_list := (lookupKey key db.index).getD []
  if tx_hash ∈ tx_list then db
  else { db with index := setKey key (tx_list ++ [tx_hash]) db.index }

/-- `Database::store_transaction`: store by hash, then index under both the
sender and the recipient address keys. -/
def Database.store_transaction (db : Database) (tx : Transaction)
    (tx_hash : String) : Database :=
  let db1 := { db with txByHash := setKey tx_hash tx db.txByHash }
  let db2 := db1.add_transaction_to_index ("addr_" ++ tx.sender) tx_hash
  db2.add_transaction_to_index ("addr_" ++ tx.recipient) tx_hash

/-- `Database::get_transactions_by_wallet`: resolve each indexed hash,
skipping dangling ones. -/
def Database.get_transactions_by_wallet (db : Database) (wallet : String) :
    List Transaction :=
  match lookupKey ("addr_" ++ wallet) db.index with
  | some tx_hashes => tx_hashes.filterMap db.get_transaction
  | none => []

/-- `Database::get_wallet_balance`: fold over the indexed transactions,
crediting received amounts and debiting sent amounts plus fees. -/
def Database.get_wallet_balance (db : Database) (wallet_address : String) : ℚ :=
  (db.get_transactions_by_wallet wallet_address).foldl
    (fun balance tx =>
      let balance1 :=
        if tx.recipient == wallet_address then balance + tx.amount else balance
      if tx.sender == wallet_address then balance1 - tx.amount - tx.fee
      else balance1)
    0

/-- The balance fold exactly as the spec words it: start at 0, add
`tx.amount` when `tx.recipient == A`, subtract `tx.amount + tx.fee` when
`tx.sender == A`. -/
def balanceSpec (A : String) (txs : List Transaction) : ℚ :=
  txs.foldl
    (fun bal tx =>
      bal + (if tx.recipient = A then tx.amount else 0) -
        (if tx.sender = A then tx.amount + tx.fee else 0))
    0

theorem foldl_ext {α β : Type} (f g : α → β → α) (l : List β) (init : α)
    (h : ∀ a b, f a b = g a b) : l.foldl f init = l.foldl g init := by
  induction l generalizing init with
  | nil => rfl
  | cons x xs ih => rw [List.foldl_cons, List.foldl_cons, h, ih]

/-- The transaction A→B with amount 10 and fee 0.1 (the fee is the raw
rational `1/10`, written as a `Rat` literal so it evaluates). -/
def txAB : Transaction := ⟨"A", "B", 10, ⟨1, 10, by decide, by decide⟩, 30, none⟩

theorem txAB_fee : txAB.fee = 1/10 := by
  show Rat.mk' 1 10 _ _ = 1/10
  rw [Rat.mk'_eq_divInt, Rat.divInt_eq_div]
  norm_num

theorem txAB_amount : txAB.amount = 10 := rfl

/-- C9. `get_wallet_balance(A)` is the spec's fold over the transactions
indexed for `A`; and for the persisted single transaction A→B with amount
10 and fee 0.1, `balance(A) = -10.1` and `balance(B) = 10.0`. -/
theorem wallet_balance_spec (db : Database) (A : String) :
    db.get_wallet_balance A = balanceSpec A (db.get_transactions_by_wallet A) ∧
    (Database.empty.store_transaction txAB txAB.hash).get_wallet_balance "A" =
      -(101/10 : ℚ) ∧
    (Database.empty.store_transaction txAB txAB.hash).get_wallet_balance "B" =
      (10 : ℚ) := by
  have hA : (Database.empty.store_transaction txAB
      txAB.hash).get_transactions_by_wallet "A" = [txAB] := by decide
  have hB : (Database.empty.store_transaction txAB
      txAB.hash).get_transactions_by_wallet "B" = [txAB] := by decide
  refine ⟨?_, ?_, ?_⟩
  · rw [Database.get_wallet_balance, balanceSpec]
    apply foldl_ext
    intro bal tx
    by_cases hr : tx.recipient = A <;> by_cases hs : tx.sender = A <;>
      simp [hr, hs] <;> ring
  · rw [Database.get_wallet_balance, hA]
    simp only [List.foldl_cons, List.foldl_nil,
      show (txAB.recipient == "A") = false from by decide,
      show (txAB.sender == "A") = true from by decide, Bool.false_eq_true,
      if_false, if_true]
    rw [txAB_fee, txAB_amount]
    norm_num
  · rw [Database.get_wallet_balance, hB]
    simp only [List.foldl_cons, List.foldl_nil,
      show (txAB.recipient == "B") = true from by decide,
      show (txAB.sender == "B") = false from by decide, Bool.false_eq_true,
      if_false, if_true]
    rw [txAB_amount]
    norm_num

/-! ## `Transaction::verify` on unsigned transactions (C10) -/

/-- C10. A transaction whose sender is not the literal string `"COINBASE"`
and whose signature is `None` never verifies, whatever the signature
oracle: the `None` arm of `Transaction::verify` returns `false`. -/
theorem verify_unsigned_false (sigOk : Transaction → String → Bool)
    (tx : Transaction) (h1 : tx.sender ≠ "COINBASE")
    (h2 : tx.signature = none) :
    Transaction.verify sigOk tx = false := by
  rw [Transaction.verify, h2]
  simp [h1]

def t10 : Transaction := ⟨"kevin", "laura", 1, 0, 40, none⟩

/-- Witness for `verify_unsigned_false` on a concrete unsigned transaction
and a signature oracle that accepts everything. -/
theorem verify_unsigned_false_witness :
    t10.sender ≠ "COINBASE" ∧ t10.signature = none ∧
    Transaction.verify (fun _ _ => true) t10 = false :=
  ⟨by decide, rfl,
    verify_unsigned_false (fun _ _ => true) t10 (by decide) rfl⟩

/-! ## The miner never prepends a coinbase (C3)

`Miner::mine` (miner.rs) builds its candidate with
`prepare_block_for_mining(data)` where `data` comes straight from the
pool, then repeatedly calls `mine_step` until the difficulty target is
met. `prepare_block_for_mining` sums the fees but only returns the sum;
`get_miner_transaction` — the function that would build the coinbase — has
no call site anywhere in the source, and `total_supply` is never updated. -/

/-- C3. Every block the miner can produce — `prepare_block_for_mining`
followed by any number of `mine_step` iterations — carries exactly the
transactions taken from the pool: no coinbase transaction is ever
prepended, contradicting the spec's miner step 4. -/
theorem mined_block_transactions (bc : Blockchain) (now : Nat)
    (data : List Transaction) (n : Nat) (blk : Block) (fees : ℚ) (diff : Nat)
    (h : bc.prepare_block_for_mining now data = some (blk, fees, diff)) :
    (Block.mine_step^[n] blk).transactions = data := by
  have hstep : ∀ b : Block, (Block.mine_step b).transactions = b.transactions :=
    fun _ => rfl
  have hiter : (Block.mine_step^[n] blk).transactions = blk.transactions := by
    induction n with
    | zero => rfl
    | succ n ih => rw [Function.iterate_succ_apply', hstep, ih]
  rw [hiter]
  rw [Blockchain.prepare_block_for_mining] at h
  rcases hl : bc.chain.getLast? with _ | last <;> rw [hl] at h
  · exact absurd h (by simp)
  · simp only [Option.some.injEq, Prod.mk.injEq] at h
    rw [← h.1]
    rfl

/-- Witness for `mined_block_transactions` at the freshly constructed
chain with an empty pool take. -/
theorem mined_block_transactions_witness :
    (Block.mine_step^[0]
        (Block.new 1 0 [] create_genesis_block.hash)).transactions =
      ([] : List Transaction) :=
  mined_block_transactions Blockchain.new 0 [] 0
    (Block.new 1 0 [] create_genesis_block.hash) 0 5 rfl

end Artemis
